import Mathlib

/-!
Verification of the core of `prd.py` (progrockdiffusion) against its
natural-language specification.

The Python source is shallowly embedded: Python floats are idealized as exact
rationals (`ℚ`), Python ints as `ℤ`/`ℕ`, IEEE special values (needed where the
code explicitly tests for them) as an explicit extended-value type, and code
that can raise exceptions returns `Option`/`Except`.  Each definition carries a
comment naming the source lines it embeds.
-/

namespace PRD

/-- A Python number as used by the schedule engine: either an `int` or a
`float` (idealized as an exact rational). -/
inductive PyNum : Type
  | pint (n : ℤ)
  | pfloat (q : ℚ)
  deriving DecidableEq, Repr

/-- The rational value of a Python number. -/
def PyNum.toRat : PyNum → ℚ
  | .pint n => (n : ℚ)
  | .pfloat q => q

/-- Python `int(x)`: truncation toward zero. -/
def pytrunc (q : ℚ) : ℤ :=
  if 0 ≤ q then ⌊q⌋ else ⌈q⌉

/-- `val_interpolate` (prd.py lines 498-504): linear interpolation
`y1 + (x - x1) * ((y2 - y1)/(x2 - x1))`; if `y1` is an `int` the result is
truncated back to `int` (`output = int(output)`), otherwise it stays a float. -/
def val_interpolate (x1 : ℚ) (y1 : PyNum) (x2 : ℚ) (y2 : PyNum) (x : ℚ) : PyNum :=
  let output : ℚ := y1.toRat + (x - x1) * ((y2.toRat - y1.toRat) / (x2 - x1))
  match y1 with
  | .pint _ => .pint (pytrunc output)
  | .pfloat _ => .pfloat output

/-- `num_to_schedule` (prd.py lines 507-518), as the sequence of values denoted
by the schedule string it builds (the string `"[a]*1+[b]*1+..."` denotes the
list of those values in order; `"[a]*1000"` denotes 1000 copies of `a`).
Passing `final = none` models the `-9999` sentinel default (no final value):
one literal copy of `input` followed by `val_interpolate(1, input, 1000, final, i)`
for `i = 1 .. 999`. -/
def num_to_schedule (input : PyNum) (final : Option PyNum) : List PyNum :=
  match final with
  | some fin =>
      input :: (List.range' 1 999).map (fun i : ℕ => val_interpolate 1 input 1000 fin (i : ℚ))
  | none => List.replicate 1000 input

/-- `do_weights` normalization step (prd.py lines 1048-1050):
```
if clip_manager.prompt_weights.sum().abs() < 1e-3:
    raise RuntimeError('The weights must not sum to 0.')
clip_manager.prompt_weights /= clip_manager.prompt_weights.sum().abs()
```
The weight tensor is a list of rationals; the `raise` is an `Except.error`. -/
def do_weights_norm (w : List ℚ) : Except String (List ℚ) :=
  if |w.sum| < 1 / 1000 then
    .error "The weights must not sum to 0."
  else
    .ok (w.map (fun x => x / |w.sum|))

/-- Sum of the per-element square, divided by the length: the `mean` of the
elementwise `square` of a tensor, i.e. the square of its RMS magnitude. -/
def meanSq (l : List ℚ) : ℚ := (l.map (fun x => x * x)).sum / l.length

/-- An IEEE-754 double as far as the guidance code observes it: a finite value
(idealized as an exact rational), a signed infinity, or NaN.  The two signed
zeros are identified. -/
inductive FV : Type
  | fin (q : ℚ)
  | inf
  | ninf
  | nan
  deriving DecidableEq, Repr

/-- `torch.isnan` on one element. -/
def FV.isNaN : FV → Bool
  | .nan => true
  | _ => false

/-- `torch.isnan(t).any()` over a tensor. -/
def hasNaN (l : List FV) : Bool := l.any FV.isNaN

/-- A value is finite iff it is neither NaN nor an infinity. -/
def FV.isFinite : FV → Bool
  | .fin _ => true
  | _ => false

/-- `torch.isfinite(t).logical_not().any()`: some entry is NaN or infinite. -/
def hasNonFinite (l : List FV) : Bool := l.any (fun v => !v.isFinite)

/-- IEEE-754 multiplication on the observed values. -/
def FV.mul : FV → FV → FV
  | .nan, _ => .nan
  | _, .nan => .nan
  | .fin a, .fin b => .fin (a * b)
  | .fin a, .inf => if a = 0 then .nan else if 0 < a then .inf else .ninf
  | .fin a, .ninf => if a = 0 then .nan else if 0 < a then .ninf else .inf
  | .inf, .fin b => if b = 0 then .nan else if 0 < b then .inf else .ninf
  | .ninf, .fin b => if b = 0 then .nan else if 0 < b then .ninf else .inf
  | .inf, .inf => .inf
  | .inf, .ninf => .ninf
  | .ninf, .inf => .ninf
  | .ninf, .ninf => .inf

/-- IEEE-754 division (a zero divisor behaves as `+0`, matching the
non-negative divisors the clamping code produces). -/
def FV.div : FV → FV → FV
  | .nan, _ => .nan
  | _, .nan => .nan
  | .fin a, .fin b =>
      if b = 0 then (if a = 0 then .nan else if 0 < a then .inf else .ninf)
      else .fin (a / b)
  | .fin _, .inf => .fin 0
  | .fin _, .ninf => .fin 0
  | .inf, .fin b => if 0 ≤ b then .inf else .ninf
  | .ninf, .fin b => if 0 ≤ b then .ninf else .inf
  | .inf, _ => .nan
  | .ninf, _ => .nan

/-- `t.clamp(max = c)` on a scalar tensor (NaN propagates). -/
def FV.clampMax : FV → ℚ → FV
  | .fin q, c => .fin (min q c)
  | .inf, c => .fin c
  | .ninf, _ => .ninf
  | .nan, _ => .nan

/-- The tail of `cond_fn` (prd.py lines 1177-1188):
```
if torch.isnan(x_in_grad).any() == False:
    grad = -torch.autograd.grad(x_in, x, x_in_grad)[0]
else:
    x_is_NaN = True
    grad = torch.zeros_like(x)
if args.clamp_grad and x_is_NaN == False:
    magnitude = grad.square().mean().sqrt()
    return grad * magnitude.clamp(max=args.clamp_max[1000 - t_int]) / magnitude
return grad
```
The backpropagation through the network is an opaque capability, so the value
of `-torch.autograd.grad(x_in, x, x_in_grad)[0]` is supplied as the parameter
`g`, and the scalar `grad.square().mean().sqrt()` as the parameter
`magnitude` (theorems that use the clamping branch constrain `magnitude` to
be the exact square root of `meanSq` of `g`).  `n` is the element count of
`x`, giving the shape of `torch.zeros_like(x)`. -/
def cond_fn_tail (x_in_grad g : List FV) (n : ℕ) (magnitude : FV)
    (clamp_grad : Bool) (clamp_max : ℚ) : List FV :=
  if hasNaN x_in_grad = false then
    if clamp_grad then
      g.map (fun v => FV.div (FV.mul v (FV.clampMax magnitude clamp_max)) magnitude)
    else g
  else
    List.replicate n (FV.fin 0)

/-- The inner re-interpolation loop of `smooth_jazz` (prd.py lines 762-765):
```
i = start
while i < end:
    newschedule[i] = val_interpolate(start, schedule[start], end, schedule[end], i)
    i += 1
```
`newschedule = schedule` aliases the input list, so reads and writes go
through the one list threaded here.  Python evaluates the right-hand side
first, so an out-of-range read of `schedule[start]` or `schedule[end]` raises
`IndexError` (modelled as `none`) before anything is written. -/
def zoneLoop (start endd : ℕ) (sched : List PyNum) (i : ℕ) : Option (List PyNum) :=
  if i < endd then
    match sched[start]?, sched[endd]? with
    | some y1, some y2 =>
        zoneLoop start endd
          (sched.set i (val_interpolate (start : ℚ) y1 (endd : ℚ) y2 (i : ℚ))) (i + 1)
    | _, _ => none
  else
    some sched
termination_by endd - i
decreasing_by omega

/-- The change-point markers of `smooth_jazz` (prd.py lines 744-751): the
indices `i` in `range(1, len(schedule))` where the value differs from its
predecessor. -/
def markersOf (schedule : List PyNum) : List ℕ :=
  (List.range' 1 (schedule.length - 1)).filter
    (fun i : ℕ => schedule[i]? != schedule[i - 1]?)

/-- The marker loop of `smooth_jazz` (prd.py lines 753-767): each marker at
least `zone / 2` past the previous one (`lastindex`, updated every iteration)
gets its zone re-interpolated; `start` is clamped to at least `1` and `end`
to at most `len(schedule)` (`if end > len(schedule): end = len(schedule)`). -/
def markerLoop (len : ℕ) (zone : ℤ) (sched : List PyNum) (lastindex : ℕ) :
    List ℕ → Option (List PyNum)
  | [] => some sched
  | index :: rest =>
    if ((index : ℚ) - (lastindex : ℚ)) ≥ (zone : ℚ) / 2 then
      let start0 : ℤ := pytrunc ((index : ℚ) - (zone : ℚ) / 2)
      let start : ℕ := if start0 < 1 then 1 else start0.toNat
      let end0 : ℤ := pytrunc ((index : ℚ) + (zone : ℚ) / 2)
      let endd : ℕ := if end0 > (len : ℤ) then len else end0.toNat
      match zoneLoop start endd sched start with
      | some sched' => markerLoop len zone sched' index rest
      | none => none
    else
      markerLoop len zone sched index rest

/-- `smooth_jazz` (prd.py lines 739-768) on an evaluated schedule: the zone
width is `int(len(schedule) * .05)`; `schedule[0]` on an empty schedule
raises (`none`), then the marker loop smooths each sufficiently separated
change-point. -/
def smooth_jazz (schedule : List PyNum) : Option (List PyNum) :=
  match schedule with
  | [] => none
  | _ :: _ =>
    markerLoop schedule.length (pytrunc ((schedule.length : ℚ) * (5 / 100)))
      schedule 0 (markersOf schedule)

/-- One `alpha_gradient.rectangle(shape, fill=a)` call of the tile alpha-mask
loop (prd.py lines 2617-2626): whether pixel `(px, py)` lies in the rectangle
drawn at loop iteration `i`, whose corner points are `(sx - i, sy - i)` and
`(i, i)` (PIL normalizes the corner order and fills both corners
inclusively). -/
def rectCovers (sx sy i px py : ℤ) : Prop :=
  min i (sx - i) ≤ px ∧ px ≤ max i (sx - i) ∧
    min i (sy - i) ≤ py ∧ py ≤ max i (sy - i)

instance (sx sy i px py : ℤ) : Decidable (rectCovers sx sy i px py) := by
  unfold rectCovers
  infer_instance

/-- The feathered alpha mask (prd.py lines 2617-2626), as the final alpha of
pixel `(px, py)`: the `'L'`-mode image starts fully opaque (`color=0xFF`) and
the loop draws `overlap` nested rectangles, iteration `i` filling with
`a = 4*i`; the pixel keeps the fill of the last rectangle covering it. -/
def maskAlpha (sx sy : ℤ) (overlap : ℕ) (px py : ℤ) : ℤ :=
  (List.range overlap).foldl
    (fun acc (i : ℕ) =>
      if rectCovers sx sy (i : ℤ) px py then 4 * (i : ℤ) else acc) 255

/-- The "vertical up" loop of `grid_coords` (prd.py lines 2429-2431, repeated
at 2439-2442 and 2450-2453):
```
while uy > 0:
    uy = uy - original_y + overlap
    uy_list.append((lx, uy))
```
The x-coordinate paired with each appended `uy` is the enclosing column's
constant `lx`/`rx`, so the loop returns the `uy` values in append order and
the caller pairs them.  `fuel` bounds the iteration count; `none` means the
loop has not finished within `fuel` iterations. -/
def upLoop (oy overlap : ℤ) : ℕ → ℤ → Option (List ℤ)
  | 0, uy => if 0 < uy then none else some []
  | fuel + 1, uy =>
      if 0 < uy then
        (upLoop oy overlap fuel (uy - oy + overlap)).map
          (fun l => (uy - oy + overlap) :: l)
      else some []

/-- The "vertical down" loop of `grid_coords` (prd.py lines 2432-2434 etc.):
```
while (dy + original_y) <= target_y:
    dy = dy + original_y - overlap
    dy_list.append((rx, dy))
``` -/
def downLoop (oy overlap ty : ℤ) : ℕ → ℤ → Option (List ℤ)
  | 0, dy => if dy + oy ≤ ty then none else some []
  | fuel + 1, dy =>
      if dy + oy ≤ ty then
        (downLoop oy overlap ty fuel (dy + oy - overlap)).map
          (fun l => (dy + oy - overlap) :: l)
      else some []

/-- The "left" column loop of `grid_coords` (prd.py lines 2435-2443): moves
`lx` left by `original_x - overlap` while `lx > 0`, appending `(lx, y)` to
`lx_list` and running the two vertical loops (restarted from `y`) for the new
column.  Returns `(lx_list, uy_list additions, dy_list additions)`. -/
def leftLoop (ox oy overlap ty y : ℤ) (ufuel : ℕ) :
    ℕ → ℤ → Option (List (ℤ × ℤ) × List (ℤ × ℤ) × List (ℤ × ℤ))
  | 0, lx => if 0 < lx then none else some ([], [], [])
  | fuel + 1, lx =>
      if 0 < lx then
        match upLoop oy overlap ufuel y, downLoop oy overlap ty ufuel y with
        | some ul, some dl =>
            (leftLoop ox oy overlap ty y ufuel fuel (lx - ox + overlap)).map
              (fun r => ((lx - ox + overlap, y) :: r.1,
                ul.map (fun u => (lx - ox + overlap, u)) ++ r.2.1,
                dl.map (fun d => (lx - ox + overlap, d)) ++ r.2.2))
        | _, _ => none
      else some ([], [], [])

/-- The "right" column loop of `grid_coords` (prd.py lines 2446-2456): moves
`rx` right by `original_x - overlap` while `rx + original_x <= target_x`,
appending `(rx, y)` to `rx_list` and running the two vertical loops for the
new column. -/
def rightLoop (ox oy overlap tx ty y : ℤ) (ufuel : ℕ) :
    ℕ → ℤ → Option (List (ℤ × ℤ) × List (ℤ × ℤ) × List (ℤ × ℤ))
  | 0, rx => if rx + ox ≤ tx then none else some ([], [], [])
  | fuel + 1, rx =>
      if rx + ox ≤ tx then
        match upLoop oy overlap ufuel y, downLoop oy overlap ty ufuel y with
        | some ul, some dl =>
            (rightLoop ox oy overlap tx ty y ufuel fuel (rx + ox - overlap)).map
              (fun r => ((rx + ox - overlap, y) :: r.1,
                ul.map (fun u => (rx + ox - overlap, u)) ++ r.2.1,
                dl.map (fun d => (rx + ox - overlap, d)) ++ r.2.2))
        | _, _ => none
      else some ([], [], [])

/-- `grid_coords` (prd.py lines 2410-2468): computes the tile placement
coordinates for a `target`-sized canvas from `original`-sized tiles with the
given `overlap`, starting at a centered tile (`int(size/2)` divisions;
canvas and tile sizes are non-negative, where `int()` truncation agrees with
`/` on `ℤ`) and expanding up/down and left/right; the master list is the
reversed `dy_list`, `uy_list`, `rx_list` and `lx_list` followed by the center
chunk.  All `while` loops are fuel-bounded with the shared `fuel`; `none`
means some loop failed to finish within the fuel. -/
def grid_coords (fuel : ℕ) (target original : ℤ × ℤ) (overlap : ℤ) :
    Option (List (ℤ × ℤ)) :=
  let tx := target.1
  let ty := target.2
  let ox := original.1
  let oy := original.2
  let x := tx / 2 - ox / 2
  let y := ty / 2 - oy / 2
  match upLoop oy overlap fuel y, downLoop oy overlap ty fuel y with
  | some uyC, some dyC =>
      match leftLoop ox oy overlap ty y fuel fuel x,
          rightLoop ox oy overlap tx ty y fuel fuel x with
      | some lres, some rres =>
          some ((dyC.map (fun d => (x, d)) ++ lres.2.2 ++ rres.2.2).reverse ++
            (uyC.map (fun u => (x, u)) ++ lres.2.1 ++ rres.2.1).reverse ++
            rres.1.reverse ++ lres.1.reverse ++ [(x, y)])
      | _, _ => none
  | _, _ => none

/-- A pixel `(px, py)` lies in the tile rectangle cropped by `grid_slice`
(prd.py lines 2471-2481) at coordinate `c`: `source.crop((x, y, x+width,
y+height))` covers the half-open box `[x, x+width) × [y, y+height)`. -/
def inTile (ox oy : ℤ) (c : ℤ × ℤ) (px py : ℤ) : Prop :=
  c.1 ≤ px ∧ px < c.1 + ox ∧ c.2 ≤ py ∧ py < c.2 + oy

/-- The brightness/contrast self-correction settings consulted by the
correction block of `do_run` (prd.py lines 1396-1422). -/
structure BCSettings where
  adjustment_interval : ℕ
  steps : ℕ
  fix_brightness_contrast : Bool
  high_brightness_adjust : Bool
  high_brightness_start : ℕ
  high_brightness_threshold : ℚ
  high_brightness_adjust_amount : ℚ
  low_brightness_adjust : Bool
  low_brightness_start : ℕ
  low_brightness_threshold : ℚ
  low_brightness_adjust_amount : ℚ
  high_contrast_adjust : Bool
  high_contrast_start : ℕ
  high_contrast_threshold : ℚ
  high_contrast_adjust_amount : ℚ
  low_contrast_adjust : Bool
  low_contrast_start : ℕ
  low_contrast_threshold : ℚ
  low_contrast_adjust_amount : ℚ

/-- The brightness/contrast correction block of `do_run` (prd.py lines
1396-1422), evaluated after each sampled step.  `s = steps - cur_t` is the
current step number; `brightness` and `contrast` are the measured mean
brightness and mean channel standard deviation of the preview image.  The PIL
`ImageEnhance` operations are opaque capabilities `enhanceBrightness` /
`enhanceContrast` applied to an abstract image.  `some img` models the
interrupt-and-restart path (the enhanced image is re-injected as the new init
and the sampling call restarted via `break`); `none` means the correction
logic leaves the working estimate unchanged. -/
def bc_correct {α : Type} (st : BCSettings) (s : ℕ) (brightness contrast : ℚ)
    (image : α) (enhanceBrightness enhanceContrast : α → ℚ → α) : Option α :=
  if s % st.adjustment_interval = 0 ∧ (s : ℚ) < (st.steps : ℚ) * (3 / 10) ∧
      st.fix_brightness_contrast = true then
    if st.high_brightness_adjust = true ∧ s > st.high_brightness_start ∧
        brightness > st.high_brightness_threshold then
      some (enhanceBrightness image st.high_brightness_adjust_amount)
    else if st.low_brightness_adjust = true ∧ s > st.low_brightness_start ∧
        brightness < st.low_brightness_threshold then
      some (enhanceBrightness image st.low_brightness_adjust_amount)
    else if st.high_contrast_adjust = true ∧ s > st.high_contrast_start ∧
        contrast > st.high_contrast_threshold then
      some (enhanceContrast image st.high_contrast_adjust_amount)
    else if st.low_contrast_adjust = true ∧ s > st.low_contrast_start ∧
        contrast < st.low_contrast_threshold then
      some (enhanceContrast image st.low_contrast_adjust_amount)
    else none
  else none

end PRD

open PRD

/-- Auxiliary: a scaled list sums to the scaled sum. -/
theorem sum_map_div (l : List ℚ) (c : ℚ) : (l.map (fun x => x / c)).sum = l.sum / c := by
  induction l with
  | nil => simp
  | cons a t ih => simp [ih, add_div]

/-- C9: if the absolute value of the sum of the prompt weights is below the
`1e-3` tolerance, `do_weights` raises (models `RuntimeError`) before any
normalization takes place. -/
theorem do_weights_degenerate_raises (w : List ℚ) (h : |w.sum| < 1 / 1000) :
    do_weights_norm w = Except.error "The weights must not sum to 0." := by
  rw [do_weights_norm, if_pos h]

/-- Witness for C9 at the concrete weight vector `[0]`. -/
theorem do_weights_degenerate_raises_witness :
    |([(0 : ℚ)]).sum| < 1 / 1000 ∧
      do_weights_norm [(0 : ℚ)] = Except.error "The weights must not sum to 0." :=
  ⟨by norm_num, do_weights_degenerate_raises [(0 : ℚ)] (by norm_num)⟩

/-- C2 counterexample: for the non-degenerate weight vector `[2, -1]`
(sum `1`, far from the tolerance), normalization leaves the vector unchanged
and the sum of the absolute values of the resulting weights is `3`, not `1`
(the code divides by the absolute value of the *sum*, not by the sum of
absolute values, so mixed-sign vectors violate the claim). -/
theorem do_weights_abs_sum_cex :
    do_weights_norm [(2 : ℚ), -1] = Except.ok [2, -1] ∧
      (([(2 : ℚ), -1]).map abs).sum = 3 := by
  constructor
  · norm_num [do_weights_norm]
  · norm_num

/-- C2 (amended): for every weight vector whose sum is not numerically
negligible, after the normalization step in `do_weights` the absolute value of
the *sum* of the resulting weights equals `1` (exactly, in the idealized
rational arithmetic). -/
theorem do_weights_sum_abs_one (w : List ℚ) (h : ¬ |w.sum| < 1 / 1000) :
    ∃ w', do_weights_norm w = Except.ok w' ∧ |w'.sum| = 1 := by
  have hpos : (0 : ℚ) < |w.sum| := by
    have : (1 : ℚ) / 1000 ≤ |w.sum| := le_of_not_lt h
    linarith
  refine ⟨w.map (fun x => x / |w.sum|), ?_, ?_⟩
  · rw [do_weights_norm, if_neg h]
  · rw [sum_map_div, abs_div, abs_abs, div_self (ne_of_gt hpos)]

/-- Witness for C2 (amended) at the concrete weight vector `[2, -1]`. -/
theorem do_weights_sum_abs_one_witness :
    ∃ w', do_weights_norm [(2 : ℚ), -1] = Except.ok w' ∧ |w'.sum| = 1 :=
  do_weights_sum_abs_one [(2 : ℚ), -1] (by norm_num)

/-- Truncation toward zero is monotone. -/
theorem pytrunc_mono {q r : ℚ} (h : q ≤ r) : pytrunc q ≤ pytrunc r := by
  unfold pytrunc
  by_cases hq : 0 ≤ q
  · rw [if_pos hq, if_pos (le_trans hq h)]
    exact Int.floor_le_floor h
  · rw [if_neg hq]
    by_cases hr : 0 ≤ r
    · rw [if_pos hr]
      calc ⌈q⌉ ≤ ⌈(0 : ℚ)⌉ := Int.ceil_le_ceil (le_of_not_le hq)
        _ = 0 := by simp
        _ ≤ ⌊r⌋ := Int.le_floor.mpr (by exact_mod_cast hr)
    · rw [if_neg hr]
      exact Int.ceil_le_ceil h

/-- Truncating an integer gives it back. -/
theorem pytrunc_intCast (n : ℤ) : pytrunc (n : ℚ) = n := by
  unfold pytrunc
  by_cases h : (0 : ℚ) ≤ (n : ℚ) <;> simp [h]

/-- At position `x = 1`, `val_interpolate 1 v1 1000 v2` returns the value
`v1` (the `int` case truncates an integer, which is the identity). -/
theorem val_interpolate_at_one (v1 v2 : PyNum) :
    (val_interpolate 1 v1 1000 v2 1).toRat = v1.toRat := by
  cases v1 with
  | pint n => simp [val_interpolate, PyNum.toRat, pytrunc_intCast]
  | pfloat q => simp [val_interpolate, PyNum.toRat]

/-- The interpolant is monotone in the sample position when `v1 ≤ v2`. -/
theorem val_interpolate_mono (v1 v2 : PyNum) (h : v1.toRat ≤ v2.toRat)
    {x y : ℚ} (hxy : x ≤ y) :
    (val_interpolate 1 v1 1000 v2 x).toRat ≤ (val_interpolate 1 v1 1000 v2 y).toRat := by
  have hout : v1.toRat + (x - 1) * ((v2.toRat - v1.toRat) / (1000 - 1)) ≤
      v1.toRat + (y - 1) * ((v2.toRat - v1.toRat) / (1000 - 1)) := by
    have hnn : 0 ≤ (v2.toRat - v1.toRat) / (1000 - 1) := by
      apply div_nonneg <;> linarith
    nlinarith
  cases v1 with
  | pint n => exact Int.cast_le.mpr (pytrunc_mono hout)
  | pfloat q => exact hout

/-- The interpolant is antitone in the sample position when `v2 ≤ v1`. -/
theorem val_interpolate_anti (v1 v2 : PyNum) (h : v2.toRat ≤ v1.toRat)
    {x y : ℚ} (hxy : x ≤ y) :
    (val_interpolate 1 v1 1000 v2 y).toRat ≤ (val_interpolate 1 v1 1000 v2 x).toRat := by
  have hout : v1.toRat + (y - 1) * ((v2.toRat - v1.toRat) / (1000 - 1)) ≤
      v1.toRat + (x - 1) * ((v2.toRat - v1.toRat) / (1000 - 1)) := by
    have hnp : (v2.toRat - v1.toRat) / (1000 - 1) ≤ 0 := by
      apply div_nonpos_of_nonpos_of_nonneg <;> linarith
    nlinarith
  cases v1 with
  | pint n => exact Int.cast_le.mpr (pytrunc_mono hout)
  | pfloat q => exact hout

/-- The last schedule element produced for a `(value, finalValue)` pair is the
interpolant at position `999` (the loop `for i in range(1, 1000)` stops at
`i = 999`, one step short of the anchor `x2 = 1000`). -/
theorem num_to_schedule_getLast (v1 v2 : PyNum) :
    (num_to_schedule v1 (some v2)).getLast? =
      some (val_interpolate 1 v1 1000 v2 999) := by
  show (v1 :: (List.range' 1 999).map _).getLast? = _
  rw [show (999 : ℕ) = 998 + 1 from rfl, List.range'_1_concat, List.map_append]
  simp only [List.map_cons, List.map_nil]
  rw [← List.cons_append, List.getLast?_concat]
  norm_num

/-- A list `range' s n` is a chain for any relation holding on successors. -/
theorem chain'_range'_of_succ (S : ℕ → ℕ → Prop) (h : ∀ i, S i (i + 1)) (n s : ℕ) :
    List.Chain' S (List.range' s n) := by
  induction n generalizing s with
  | zero => simp
  | succ m ih =>
    rw [List.range'_succ]
    cases m with
    | zero => simp
    | succ k =>
      rw [List.range'_succ]
      refine List.chain'_cons.mpr ⟨h s, ?_⟩
      rw [← List.range'_succ]
      exact ih (s + 1)

/-- C1 (amended): expanding a pair `(v1, v2)` with `num_to_schedule` yields a
sequence whose first element equals `v1`, whose last element equals the
interpolant at position `999` — `v1 + 998*(v2-v1)/999` (truncated when `v1` is
an `int`), *not* `v2` — and whose values transition monotonically:
non-decreasing throughout if `v1 ≤ v2`, non-increasing if `v2 ≤ v1`. -/
theorem num_to_schedule_expand (v1 v2 : PyNum) :
    (num_to_schedule v1 (some v2)).head? = some v1 ∧
    (num_to_schedule v1 (some v2)).getLast? =
      some (val_interpolate 1 v1 1000 v2 999) ∧
    (v1.toRat ≤ v2.toRat →
      (num_to_schedule v1 (some v2)).Chain' (fun a b => a.toRat ≤ b.toRat)) ∧
    (v2.toRat ≤ v1.toRat →
      (num_to_schedule v1 (some v2)).Chain' (fun a b => b.toRat ≤ a.toRat)) := by
  refine ⟨rfl, num_to_schedule_getLast v1 v2, ?_, ?_⟩
  · intro h
    show List.Chain' _ (v1 :: _)
    rw [List.chain'_cons']
    constructor
    · intro b hb
      rw [show (999 : ℕ) = 998 + 1 from rfl, List.range'_succ, List.map_cons] at hb
      simp only [List.head?_cons, Option.mem_def, Option.some.injEq] at hb
      rw [← hb, Nat.cast_one, val_interpolate_at_one]
    · rw [List.chain'_map]
      exact chain'_range'_of_succ _
        (fun i => val_interpolate_mono v1 v2 h (by push_cast; linarith)) _ _
  · intro h
    show List.Chain' _ (v1 :: _)
    rw [List.chain'_cons']
    constructor
    · intro b hb
      rw [show (999 : ℕ) = 998 + 1 from rfl, List.range'_succ, List.map_cons] at hb
      simp only [List.head?_cons, Option.mem_def, Option.some.injEq] at hb
      rw [← hb, Nat.cast_one, val_interpolate_at_one]
    · rw [List.chain'_map]
      exact chain'_range'_of_succ _
        (fun i => val_interpolate_anti v1 v2 h (by push_cast; linarith)) _ _

/-- Witness for C1 (amended): concrete monotone expansions of `(5, 6)` and
`(6, 5)`. -/
theorem num_to_schedule_expand_witness :
    (num_to_schedule (PyNum.pint 5) (some (PyNum.pint 6))).Chain'
      (fun a b => a.toRat ≤ b.toRat) ∧
    (num_to_schedule (PyNum.pint 6) (some (PyNum.pint 5))).Chain'
      (fun a b => b.toRat ≤ a.toRat) :=
  ⟨(num_to_schedule_expand (PyNum.pint 5) (PyNum.pint 6)).2.2.1
      (by norm_num [PyNum.toRat]),
   (num_to_schedule_expand (PyNum.pint 6) (PyNum.pint 5)).2.2.2
      (by norm_num [PyNum.toRat])⟩

/-- C3 counterexample: an aggregated guidance gradient containing `+inf` (a
non-finite value that is not NaN) passes the `torch.isnan(...).any()` check
unchanged, so `cond_fn` returns the backpropagated gradient instead of a zero
gradient (here with clamping disabled). -/
theorem cond_fn_nonfinite_cex :
    hasNonFinite [FV.inf] = true ∧
      cond_fn_tail [FV.inf] [FV.inf] 1 FV.inf false 0 ≠
        List.replicate 1 (FV.fin 0) := by
  exact ⟨rfl, by decide⟩

/-- C3 (amended): whenever the aggregated guidance gradient contains a NaN
value, `cond_fn` returns a zero gradient of the shape of the input latent
(clamping, if enabled, is bypassed), and the run continues: the callback
returns normally rather than raising. -/
theorem cond_fn_nan_zero_grad (x_in_grad g : List FV) (n : ℕ) (m : FV)
    (cg : Bool) (cm : ℚ) (h : hasNaN x_in_grad = true) :
    cond_fn_tail x_in_grad g n m cg cm = List.replicate n (FV.fin 0) := by
  rw [cond_fn_tail, h]
  simp

/-- Witness for C3 (amended) at a concrete NaN-containing gradient. -/
theorem cond_fn_nan_zero_grad_witness :
    hasNaN [FV.nan, FV.fin 1] = true ∧
      cond_fn_tail [FV.nan, FV.fin 1] [FV.fin 2, FV.fin 3] 2 (FV.fin 1) true 1 =
        List.replicate 2 (FV.fin 0) :=
  ⟨rfl, cond_fn_nan_zero_grad [FV.nan, FV.fin 1] [FV.fin 2, FV.fin 3] 2
    (FV.fin 1) true 1 rfl⟩

/-- Scaling a list scales its mean square quadratically. -/
theorem meanSq_map_mul (l : List ℚ) (s : ℚ) :
    meanSq (l.map (fun q => q * s)) = meanSq l * (s * s) := by
  unfold meanSq
  rw [List.map_map, List.length_map]
  have : ((fun x => x * x) ∘ fun q => q * s) = fun q => (q * q) * (s * s) := by
    funext q
    simp only [Function.comp_apply]
    ring
  rw [this, List.sum_map_mul_right, div_mul_eq_mul_div]

/-- C6 counterexample: with clamping enabled and a computed gradient that is
finite but all-zero, the RMS magnitude is `0` and the rescaling divides zero
by zero, so `cond_fn` returns a NaN gradient — not a non-negative scalar
multiple of the computed gradient.  (`0 * 0 = meanSq [0]` records that the
supplied magnitude is the exact RMS of the gradient.) -/
theorem cond_fn_clamp_zero_cex :
    (0 : ℚ) * 0 = meanSq [(0 : ℚ)] ∧
      cond_fn_tail [FV.fin 0] [FV.fin 0] 1 (FV.fin 0) true (1 / 20) = [FV.nan] ∧
      ¬ ∃ s : ℚ, 0 ≤ s ∧
          cond_fn_tail [FV.fin 0] [FV.fin 0] 1 (FV.fin 0) true (1 / 20) =
            ([(0 : ℚ)]).map (fun q => FV.fin (q * s)) := by
  have heval : cond_fn_tail [FV.fin 0] [FV.fin 0] 1 (FV.fin 0) true (1 / 20) =
      [FV.nan] := by
    norm_num [cond_fn_tail, hasNaN, FV.isNaN, FV.clampMax, FV.mul, FV.div]
  refine ⟨by norm_num [meanSq], heval, ?_⟩
  rintro ⟨s, -, h⟩
  rw [heval] at h
  simp at h

/-- C6 (amended): at a step where gradient clamping is enabled and the
computed gradient is finite and nonzero (positive RMS magnitude `r`, supplied
with the proof `r * r = meanSq gq` that it is the exact square root the code
computes), the returned gradient is a non-negative scalar multiple of the
computed gradient and its mean square does not exceed the square of the
per-step clamp-max schedule value. -/
theorem cond_fn_clamp_rms (gq : List ℚ) (x_in_grad : List FV) (r cm : ℚ)
    (hnn : hasNaN x_in_grad = false) (hr : r * r = meanSq gq) (hrpos : 0 < r)
    (hcm : 0 ≤ cm) :
    ∃ s : ℚ, 0 ≤ s ∧
      cond_fn_tail x_in_grad (gq.map FV.fin) gq.length (FV.fin r) true cm =
        gq.map (fun q => FV.fin (q * s)) ∧
      meanSq (gq.map (fun q => q * s)) ≤ cm * cm := by
  have hminnn : 0 ≤ min r cm := le_min hrpos.le hcm
  refine ⟨min r cm / r, div_nonneg hminnn hrpos.le, ?_, ?_⟩
  · rw [cond_fn_tail, hnn]
    simp only [if_true, List.map_map]
    apply List.map_congr_left
    intro q _
    show FV.div (FV.mul (FV.fin q) (FV.clampMax (FV.fin r) cm)) (FV.fin r) = _
    rw [FV.clampMax]
    show FV.div (FV.fin (q * min r cm)) (FV.fin r) = _
    rw [FV.div, if_neg hrpos.ne', mul_div_assoc]
  · rw [meanSq_map_mul, ← hr]
    have hkey : r * r * (min r cm / r * (min r cm / r)) = min r cm * min r cm := by
      field_simp
    rw [hkey]
    exact mul_le_mul (min_le_right r cm) (min_le_right r cm) hminnn hcm

/-- Witness for C6 (amended): gradient `[2]` with RMS `2` clamped to `1`. -/
theorem cond_fn_clamp_rms_witness :
    ∃ s : ℚ, 0 ≤ s ∧
      cond_fn_tail [FV.fin 7] ([(2 : ℚ)].map FV.fin) ([(2 : ℚ)]).length
          (FV.fin 2) true 1 =
        ([(2 : ℚ)]).map (fun q => FV.fin (q * s)) ∧
      meanSq (([(2 : ℚ)]).map (fun q => q * s)) ≤ 1 * 1 :=
  cond_fn_clamp_rms [(2 : ℚ)] [FV.fin 7] 2 1 rfl (by norm_num [meanSq])
    (by norm_num) (by norm_num)

/-- The generic nested-rectangle fold: starting from `255`, iteration `i`
overwrites the accumulator with `4*i` whenever `i ≤ d`.  For `0 ≤ d` and at
least one iteration the result is `4 * min d (n-1)`. -/
theorem foldl_ring_fill (d : ℤ) (hd : 0 ≤ d) :
    ∀ n : ℕ, 1 ≤ n →
      (List.range n).foldl
          (fun acc (i : ℕ) => if (i : ℤ) ≤ d then 4 * (i : ℤ) else acc) 255 =
        4 * min d ((n : ℤ) - 1) := by
  intro n hn
  induction n with
  | zero => omega
  | succ m ih =>
    rw [List.range_succ, List.foldl_append]
    cases Nat.eq_or_lt_of_le hn with
    | inl h1 =>
      have hm : m = 0 := by omega
      subst hm
      simp only [List.range_zero, List.foldl_nil, List.foldl_cons]
      rw [if_pos (by exact_mod_cast hd)]
      have : min d ((0 : ℤ) + 1 - 1) = 0 := by omega
      push_cast
      omega
    | inr h1 =>
      have hm : 1 ≤ m := by omega
      rw [ih hm]
      simp only [List.foldl_cons, List.foldl_nil]
      by_cases hcase : (m : ℤ) ≤ d
      · rw [if_pos hcase]
        have : min d ((m : ℤ) + 1 - 1) = m := by omega
        push_cast
        omega
      · rw [if_neg hcase]
        push_cast
        omega

/-- C7 counterexample: on a 10×10 mask with overlap 3, the center pixel
`(5,5)` ends with alpha `8 = 4*(overlap-1)`, not the fully opaque `255`: the
first rectangle (fill 0) covers the whole image and the innermost drawn
rectangle overwrites the center with `4*(overlap-1)`, so no pixel keeps the
initial opaque value. -/
theorem maskAlpha_center_cex :
    maskAlpha 10 10 3 5 5 = 8 ∧ (8 : ℤ) ≠ 255 := by
  exact ⟨by decide, by decide⟩

/-- C7 (amended): for a mask of size `sx × sy` with overlap at most half the
mask size, the alpha of an in-range pixel equals `4 * min d (overlap - 1)`
where `d = min(px, sx-px, py, sy-py)` is its ring distance from the border:
alpha `0` (transparent) at the outermost border pixels, increasing by the
fixed step `4` per pixel ring over the configured overlap width, and constant
at the maximum `4*(overlap-1)` — not fully opaque — from ring `overlap-1`
inward, the center included. -/
theorem maskAlpha_formula (sx sy : ℤ) (ov : ℕ) (px py : ℤ) (hov : 1 ≤ ov)
    (hsx : 2 * (ov : ℤ) ≤ sx) (hsy : 2 * (ov : ℤ) ≤ sy) (hpx : 0 ≤ px)
    (hpx2 : px ≤ sx) (hpy : 0 ≤ py) (hpy2 : py ≤ sy) :
    maskAlpha sx sy ov px py =
      4 * min (min (min px (sx - px)) (min py (sy - py))) ((ov : ℤ) - 1) := by
  set d : ℤ := min (min px (sx - px)) (min py (sy - py)) with hdef
  have hd : 0 ≤ d := by omega
  rw [maskAlpha, List.foldl_ext _
      (fun acc (i : ℕ) => if (i : ℤ) ≤ d then 4 * (i : ℤ) else acc) 255 ?_]
  · exact foldl_ring_fill d hd ov hov
  · intro acc i hi
    have hi' : (i : ℤ) < (ov : ℤ) := by
      exact_mod_cast List.mem_range.mp hi
    have hcov : rectCovers sx sy (i : ℤ) px py ↔ (i : ℤ) ≤ d := by
      unfold rectCovers
      omega
    dsimp only
    exact if_congr hcov rfl rfl

/-- Witness for C7 (amended): the 10×10 mask with overlap 3 at pixel (5,5). -/
theorem maskAlpha_formula_witness :
    maskAlpha 10 10 3 5 5 =
      4 * min (min (min 5 (10 - 5)) (min 5 (10 - 5))) ((3 : ℤ) - 1) :=
  maskAlpha_formula 10 10 3 5 5 (by norm_num) (by norm_num) (by norm_num)
    (by norm_num) (by norm_num) (by norm_num) (by norm_num)

/-- C8: the brightness/contrast self-correction never touches the working
estimate at a step `s` unless the feature is enabled, `s` is an exact multiple
of the configured adjustment interval, and `s` is strictly within the first
30% of the total step count; at every other step the correction block leaves
the estimate unchanged (returns no replacement image). -/
theorem bc_correct_guard {α : Type} (st : BCSettings) (s : ℕ) (b c : ℚ)
    (img : α) (eB eC : α → ℚ → α)
    (h : ¬ (s % st.adjustment_interval = 0 ∧
      (s : ℚ) < (st.steps : ℚ) * (3 / 10) ∧ st.fix_brightness_contrast = true)) :
    bc_correct st s b c img eB eC = none := by
  rw [bc_correct, if_neg h]

/-- Witness for C8 at a concrete non-qualifying step (35 is not a multiple of
the interval 10), with all corrections armed and thresholds crossed. -/
theorem bc_correct_guard_witness :
    bc_correct
      { adjustment_interval := 10, steps := 1000, fix_brightness_contrast := true
        high_brightness_adjust := true, high_brightness_start := 0
        high_brightness_threshold := 0, high_brightness_adjust_amount := 1
        low_brightness_adjust := true, low_brightness_start := 0
        low_brightness_threshold := 1, low_brightness_adjust_amount := 1
        high_contrast_adjust := true, high_contrast_start := 0
        high_contrast_threshold := 0, high_contrast_adjust_amount := 1
        low_contrast_adjust := true, low_contrast_start := 0
        low_contrast_threshold := 1, low_contrast_adjust_amount := 1 }
      35 (1 / 2) (1 / 2) (0 : ℕ) (fun i _ => i + 1) (fun i _ => i + 2) = none :=
  bc_correct_guard _ 35 (1 / 2) (1 / 2) 0 _ _ (fun hc => absurd hc.1 (by decide))

/-- C5: evaluation of `smooth_jazz` at the failing input: a length-40
schedule that is `0` everywhere except `1` at the last index.  The zone width
is `int(40 * .05) = 2` and the change-point marker at index `39` is far
enough from the previous marker (`39 - 0 ≥ 1`), so the zone is smoothed with
`start = 38` and `end = int(39 + 1) = 40`; the clamp `if end > len(schedule)`
leaves `end = 40` (equal to the length), and the first re-interpolation
iteration reads `schedule[40]` — an out-of-bounds index — raising
`IndexError` (`none`).  This contradicts both the claim and the code's own
comment `# make sure we stay within the range of the array`. -/
theorem smooth_jazz_oob :
    smooth_jazz (List.replicate 39 (PyNum.pint 0) ++ [PyNum.pint 1]) = none := by
  have hm : markersOf (List.replicate 39 (PyNum.pint 0) ++ [PyNum.pint 1]) = [39] := by
    decide
  rw [show smooth_jazz (List.replicate 39 (PyNum.pint 0) ++ [PyNum.pint 1]) =
    markerLoop (List.replicate 39 (PyNum.pint 0) ++ [PyNum.pint 1]).length
      (pytrunc (((List.replicate 39 (PyNum.pint 0) ++
        [PyNum.pint 1]).length : ℚ) * (5 / 100)))
      (List.replicate 39 (PyNum.pint 0) ++ [PyNum.pint 1]) 0
      (markersOf (List.replicate 39 (PyNum.pint 0) ++ [PyNum.pint 1])) from rfl, hm]
  have hlen : (List.replicate 39 (PyNum.pint 0) ++ [PyNum.pint 1]).length = 40 := by
    simp
  rw [hlen]
  have hz : pytrunc (((40 : ℕ) : ℚ) * (5 / 100)) = 2 := by norm_num [pytrunc]
  rw [hz]
  have h40 : (List.replicate 39 (PyNum.pint 0) ++ [PyNum.pint 1])[40]? =
      (none : Option PyNum) := by decide
  have hzl : zoneLoop 38 40 (List.replicate 39 (PyNum.pint 0) ++ [PyNum.pint 1]) 38 =
      none := by
    rw [zoneLoop]
    simp only [h40]
    norm_num
  rw [markerLoop, if_pos (by norm_num)]
  norm_num [pytrunc]
  rw [show Int.toNat 38 = 38 from rfl, show Int.toNat 40 = 40 from rfl, hzl]

/-- With a strictly positive vertical advance `oy - overlap`, the up loop
finishes within `uy.toNat + 1` iterations. -/
theorem upLoop_enough (oy overlap : ℤ) (hd : 0 < oy - overlap) :
    ∀ fuel : ℕ, ∀ uy : ℤ, uy.toNat < fuel →
      ∃ l, upLoop oy overlap fuel uy = some l := by
  intro fuel
  induction fuel with
  | zero => intro uy h; omega
  | succ f ih =>
    intro uy h
    by_cases hc : 0 < uy
    · obtain ⟨l, hl⟩ := ih (uy - oy + overlap) (by omega)
      exact ⟨(uy - oy + overlap) :: l, by rw [upLoop, if_pos hc, hl]; rfl⟩
    · exact ⟨[], by rw [upLoop, if_neg hc]⟩

/-- With a strictly positive vertical advance, the down loop finishes within
`(ty - dy).toNat + 1` iterations. -/
theorem downLoop_enough (oy overlap ty : ℤ) (hd : 0 < oy - overlap)
    (hoy : 0 < oy) :
    ∀ fuel : ℕ, ∀ dy : ℤ, (ty - dy).toNat < fuel →
      ∃ l, downLoop oy overlap ty fuel dy = some l := by
  intro fuel
  induction fuel with
  | zero => intro dy h; omega
  | succ f ih =>
    intro dy h
    by_cases hc : dy + oy ≤ ty
    · obtain ⟨l, hl⟩ := ih (dy + oy - overlap) (by omega)
      exact ⟨(dy + oy - overlap) :: l, by rw [downLoop, if_pos hc, hl]; rfl⟩
    · exact ⟨[], by rw [downLoop, if_neg hc]⟩

/-- When the overlap is at least the tile height, the up loop never makes
progress: from any starting `uy > 0` it runs out of any amount of fuel. -/
theorem upLoop_stuck (oy overlap : ℤ) (h : oy ≤ overlap) :
    ∀ fuel : ℕ, ∀ uy : ℤ, 0 < uy → upLoop oy overlap fuel uy = none := by
  intro fuel
  induction fuel with
  | zero => intro uy hc; rw [upLoop, if_pos hc]
  | succ f ih =>
    intro uy hc
    rw [upLoop, if_pos hc, ih (uy - oy + overlap) (by omega)]
    rfl

/-- When the overlap is at least the tile height, the down loop never makes
progress either. -/
theorem downLoop_stuck (oy overlap ty : ℤ) (h : oy ≤ overlap) :
    ∀ fuel : ℕ, ∀ dy : ℤ, dy + oy ≤ ty → downLoop oy overlap ty fuel dy = none := by
  intro fuel
  induction fuel with
  | zero => intro dy hc; rw [downLoop, if_pos hc]
  | succ f ih =>
    intro dy hc
    rw [downLoop, if_pos hc, ih (dy + oy - overlap) (by omega)]
    rfl

/-- When the overlap is at least the tile width, the left loop never makes
progress: from any starting `lx > 0` it runs out of any amount of fuel
(`lx - original_x + overlap ≥ lx` keeps the `while lx > 0` condition true),
whatever its inner vertical loops do. -/
theorem leftLoop_stuck (ox oy overlap ty y : ℤ) (h : ox ≤ overlap) (ufuel : ℕ) :
    ∀ fuel : ℕ, ∀ lx : ℤ, 0 < lx →
      leftLoop ox oy overlap ty y ufuel fuel lx = none := by
  intro fuel
  induction fuel with
  | zero => intro lx hc; rw [leftLoop, if_pos hc]
  | succ f ih =>
    intro lx hc
    rw [leftLoop, if_pos hc]
    cases upLoop oy overlap ufuel y with
    | none => rfl
    | some ul =>
      cases downLoop oy overlap ty ufuel y with
      | none => rfl
      | some dl =>
        rw [ih (lx - ox + overlap) (by omega)]
        rfl

/-- When the overlap is at least the tile width, the right loop never makes
progress either (`rx + original_x - overlap ≤ rx` keeps the
`while rx + original_x <= target_x` condition true). -/
theorem rightLoop_stuck (ox oy overlap tx ty y : ℤ) (h : ox ≤ overlap)
    (ufuel : ℕ) :
    ∀ fuel : ℕ, ∀ rx : ℤ, rx + ox ≤ tx →
      rightLoop ox oy overlap tx ty y ufuel fuel rx = none := by
  intro fuel
  induction fuel with
  | zero => intro rx hc; rw [rightLoop, if_pos hc]
  | succ f ih =>
    intro rx hc
    rw [rightLoop, if_pos hc]
    cases upLoop oy overlap ufuel y with
    | none => rfl
    | some ul =>
      cases downLoop oy overlap ty ufuel y with
      | none => rfl
      | some dl =>
        rw [ih (rx + ox - overlap) (by omega)]
        rfl

/-- With strictly positive advances on both axes, the left loop finishes
within `lx.toNat + 1` iterations (its inner vertical loops always restart
from `y`, so one inner fuel bound serves every column). -/
theorem leftLoop_enough (ox oy overlap ty y : ℤ) (hdx : 0 < ox - overlap)
    (hdy : 0 < oy - overlap) (hoy : 0 < oy) (ufuel : ℕ) (hu : y.toNat < ufuel)
    (hv : (ty - y).toNat < ufuel) :
    ∀ fuel : ℕ, ∀ lx : ℤ, lx.toNat < fuel →
      ∃ t, leftLoop ox oy overlap ty y ufuel fuel lx = some t := by
  intro fuel
  induction fuel with
  | zero => intro lx h; omega
  | succ f ih =>
    intro lx h
    by_cases hc : 0 < lx
    · obtain ⟨ul, hul⟩ := upLoop_enough oy overlap hdy ufuel y hu
      obtain ⟨dl, hdl⟩ := downLoop_enough oy overlap ty hdy hoy ufuel y hv
      obtain ⟨t, ht⟩ := ih (lx - ox + overlap) (by omega)
      refine ⟨((lx - ox + overlap, y) :: t.1,
        ul.map (fun u => (lx - ox + overlap, u)) ++ t.2.1,
        dl.map (fun d => (lx - ox + overlap, d)) ++ t.2.2), ?_⟩
      rw [leftLoop, if_pos hc, hul, hdl, ht]
      rfl
    · exact ⟨([], [], []), by rw [leftLoop, if_neg hc]⟩

/-- With strictly positive advances on both axes, the right loop finishes
within `(tx - rx).toNat + 1` iterations. -/
theorem rightLoop_enough (ox oy overlap tx ty y : ℤ) (hdx : 0 < ox - overlap)
    (hdy : 0 < oy - overlap) (hox : 0 < ox) (hoy : 0 < oy) (ufuel : ℕ)
    (hu : y.toNat < ufuel) (hv : (ty - y).toNat < ufuel) :
    ∀ fuel : ℕ, ∀ rx : ℤ, (tx - rx).toNat < fuel →
      ∃ t, rightLoop ox oy overlap tx ty y ufuel fuel rx = some t := by
  intro fuel
  induction fuel with
  | zero => intro rx h; omega
  | succ f ih =>
    intro rx h
    by_cases hc : rx + ox ≤ tx
    · obtain ⟨ul, hul⟩ := upLoop_enough oy overlap hdy ufuel y hu
      obtain ⟨dl, hdl⟩ := downLoop_enough oy overlap ty hdy hoy ufuel y hv
      obtain ⟨t, ht⟩ := ih (rx + ox - overlap) (by omega)
      refine ⟨((rx + ox - overlap, y) :: t.1,
        ul.map (fun u => (rx + ox - overlap, u)) ++ t.2.1,
        dl.map (fun d => (rx + ox - overlap, d)) ++ t.2.2), ?_⟩
      rw [rightLoop, if_pos hc, hul, hdl, ht]
      rfl
    · exact ⟨([], [], []), by rw [rightLoop, if_neg hc]⟩

/-- Termination of `grid_coords` under positive sizes and an overlap strictly
smaller than both tile dimensions: some fuel suffices for every loop. -/
theorem grid_coords_exists (tx ty ox oy overlap : ℤ) (htx : 0 < tx)
    (hty : 0 < ty) (hox : 0 < ox) (hoy : 0 < oy) (hovx : overlap < ox)
    (hovy : overlap < oy) :
    ∃ fuel coords, grid_coords fuel (tx, ty) (ox, oy) overlap = some coords := by
  set x : ℤ := tx / 2 - ox / 2 with hxdef
  set y : ℤ := ty / 2 - oy / 2 with hydef
  set F : ℕ := max (max y.toNat (ty - y).toNat) (max x.toNat (tx - x).toNat) + 1
    with hFdef
  obtain ⟨uyC, huC⟩ := upLoop_enough oy overlap (by omega) F y (by omega)
  obtain ⟨dyC, hdC⟩ := downLoop_enough oy overlap ty (by omega) hoy F y (by omega)
  obtain ⟨lres, hl⟩ := leftLoop_enough ox oy overlap ty y (by omega) (by omega)
    hoy F (by omega) (by omega) F x (by omega)
  obtain ⟨rres, hr⟩ := rightLoop_enough ox oy overlap tx ty y (by omega)
    (by omega) hox hoy F (by omega) (by omega) F x (by omega)
  refine ⟨F, ?_⟩
  unfold grid_coords
  dsimp only
  rw [← hxdef, ← hydef, huC, hdC, hl, hr]
  exact ⟨_, rfl⟩

/-- A finished up loop covers every row from `0` up to (excluding) `uy + oy`
with tiles at `uy` or at one of the produced coordinates. -/
theorem upLoop_covers (oy ov : ℤ) (hov : 0 ≤ ov) :
    ∀ fuel : ℕ, ∀ uy : ℤ, ∀ l, upLoop oy ov fuel uy = some l →
      ∀ py : ℤ, 0 ≤ py → py < uy + oy →
        ∃ c, (c = uy ∨ c ∈ l) ∧ c ≤ py ∧ py < c + oy := by
  intro fuel
  induction fuel with
  | zero =>
    intro uy l h py h0 h1
    by_cases hc : 0 < uy
    · rw [upLoop, if_pos hc] at h
      cases h
    · rw [upLoop, if_neg hc] at h
      exact ⟨uy, Or.inl rfl, by omega, h1⟩
  | succ f ih =>
    intro uy l h py h0 h1
    by_cases hc : 0 < uy
    · rw [upLoop, if_pos hc] at h
      cases hrec : upLoop oy ov f (uy - oy + ov) with
      | none => rw [hrec] at h; cases h
      | some l' =>
        rw [hrec] at h
        injection h with h
        subst h
        by_cases hpy : uy ≤ py
        · exact ⟨uy, Or.inl rfl, hpy, h1⟩
        · obtain ⟨c, hm, hc1, hc2⟩ := ih (uy - oy + ov) l' hrec py h0 (by omega)
          refine ⟨c, ?_, hc1, hc2⟩
          rcases hm with hm | hm
          · exact Or.inr (by simp [hm])
          · exact Or.inr (by simp [hm])
    · rw [upLoop, if_neg hc] at h
      injection h with h
      subst h
      exact ⟨uy, Or.inl rfl, by omega, h1⟩

/-- A finished down loop covers every row from `dy` up to (excluding) the
target height `ty`. -/
theorem downLoop_covers (oy ov ty : ℤ) (hov : 0 ≤ ov) :
    ∀ fuel : ℕ, ∀ dy : ℤ, ∀ l, downLoop oy ov ty fuel dy = some l →
      ∀ py : ℤ, dy ≤ py → py < ty →
        ∃ c, (c = dy ∨ c ∈ l) ∧ c ≤ py ∧ py < c + oy := by
  intro fuel
  induction fuel with
  | zero =>
    intro dy l h py h0 h1
    by_cases hc : dy + oy ≤ ty
    · rw [downLoop, if_pos hc] at h
      cases h
    · rw [downLoop, if_neg hc] at h
      exact ⟨dy, Or.inl rfl, h0, by omega⟩
  | succ f ih =>
    intro dy l h py h0 h1
    by_cases hc : dy + oy ≤ ty
    · rw [downLoop, if_pos hc] at h
      cases hrec : downLoop oy ov ty f (dy + oy - ov) with
      | none => rw [hrec] at h; cases h
      | some l' =>
        rw [hrec] at h
        injection h with h
        subst h
        by_cases hpy : py < dy + oy
        · exact ⟨dy, Or.inl rfl, h0, hpy⟩
        · obtain ⟨c, hm, hc1, hc2⟩ := ih (dy + oy - ov) l' hrec py (by omega) h1
          refine ⟨c, ?_, hc1, hc2⟩
          rcases hm with hm | hm
          · exact Or.inr (by simp [hm])
          · exact Or.inr (by simp [hm])
    · rw [downLoop, if_neg hc] at h
      injection h with h
      subst h
      exact ⟨dy, Or.inl rfl, h0, by omega⟩

/-- One column (base tile at `y` plus its finished up and down loops) covers
the full vertical extent `[0, ty)` of the canvas. -/
theorem column_covers (oy ov ty : ℤ) (hov : 0 ≤ ov) (hoy : 0 < oy) (ufuel : ℕ)
    (y : ℤ) (ul dl : List ℤ) (hu : upLoop oy ov ufuel y = some ul)
    (hd : downLoop oy ov ty ufuel y = some dl) (py : ℤ) (h0 : 0 ≤ py)
    (h1 : py < ty) :
    ∃ c, (c = y ∨ c ∈ ul ∨ c ∈ dl) ∧ c ≤ py ∧ py < c + oy := by
  by_cases hy : y ≤ py
  · obtain ⟨c, hm, hc1, hc2⟩ := downLoop_covers oy ov ty hov ufuel y dl hd py hy h1
    exact ⟨c, by tauto, hc1, hc2⟩
  · obtain ⟨c, hm, hc1, hc2⟩ := upLoop_covers oy ov hov ufuel y ul hu py h0 (by omega)
    exact ⟨c, by tauto, hc1, hc2⟩

/-- A finished left loop covers every canvas pixel strictly left of its
starting column `lx` (the pixels at `lx` and rightwards are left to the
caller's own column). -/
theorem leftLoop_covers (ox oy ov ty y : ℤ) (hov : 0 ≤ ov) (hoy : 0 < oy)
    (ufuel : ℕ) :
    ∀ fuel : ℕ, ∀ lx : ℤ, ∀ res, leftLoop ox oy ov ty y ufuel fuel lx = some res →
      ∀ px py : ℤ, 0 ≤ px → px < lx + ox → 0 ≤ py → py < ty →
        lx ≤ px ∨ ∃ c, (c ∈ res.1 ∨ c ∈ res.2.1 ∨ c ∈ res.2.2) ∧
          c.1 ≤ px ∧ px < c.1 + ox ∧ c.2 ≤ py ∧ py < c.2 + oy := by
  intro fuel
  induction fuel with
  | zero =>
    intro lx res h px py hpx0 hpx1 hpy0 hpy1
    by_cases hc : 0 < lx
    · rw [leftLoop, if_pos hc] at h
      cases h
    · exact Or.inl (by omega)
  | succ f ih =>
    intro lx res h px py hpx0 hpx1 hpy0 hpy1
    by_cases hc : 0 < lx
    · rw [leftLoop, if_pos hc] at h
      cases hul : upLoop oy ov ufuel y with
      | none => rw [hul] at h; cases h
      | some ul =>
        cases hdl : downLoop oy ov ty ufuel y with
        | none => rw [hul, hdl] at h; cases h
        | some dl =>
          rw [hul, hdl] at h
          cases hrec : leftLoop ox oy ov ty y ufuel f (lx - ox + ov) with
          | none => rw [hrec] at h; cases h
          | some res' =>
            rw [hrec] at h
            injection h with h
            subst h
            by_cases hpx : lx ≤ px
            · exact Or.inl hpx
            · have hres := ih (lx - ox + ov) res' hrec px py hpx0 (by omega)
                hpy0 hpy1
              rcases hres with hres | ⟨c, hm, hcov⟩
              · obtain ⟨cy, hcy, hcy1, hcy2⟩ := column_covers oy ov ty hov hoy
                  ufuel y ul dl hul hdl py hpy0 hpy1
                refine Or.inr ⟨(lx - ox + ov, cy), ?_, hres, by omega, hcy1, hcy2⟩
                rcases hcy with rfl | hcy | hcy
                · exact Or.inl (List.mem_cons_self _ _)
                · exact Or.inr (Or.inl (List.mem_append_left _
                    (List.mem_map_of_mem _ hcy)))
                · exact Or.inr (Or.inr (List.mem_append_left _
                    (List.mem_map_of_mem _ hcy)))
              · refine Or.inr ⟨c, ?_, hcov⟩
                rcases hm with hm | hm | hm
                · exact Or.inl (List.mem_cons_of_mem _ hm)
                · exact Or.inr (Or.inl (List.mem_append_right _ hm))
                · exact Or.inr (Or.inr (List.mem_append_right _ hm))
    · exact Or.inl (by omega)

/-- A finished right loop covers every canvas pixel at or right of its
starting column `rx` except the horizontal band of the caller's own tile at
`rx`. -/
theorem rightLoop_covers (ox oy ov tx ty y : ℤ) (hov : 0 ≤ ov) (hoy : 0 < oy)
    (ufuel : ℕ) :
    ∀ fuel : ℕ, ∀ rx : ℤ, ∀ res,
      rightLoop ox oy ov tx ty y ufuel fuel rx = some res →
      ∀ px py : ℤ, rx ≤ px → px < tx → 0 ≤ py → py < ty →
        px < rx + ox ∨ ∃ c, (c ∈ res.1 ∨ c ∈ res.2.1 ∨ c ∈ res.2.2) ∧
          c.1 ≤ px ∧ px < c.1 + ox ∧ c.2 ≤ py ∧ py < c.2 + oy := by
  intro fuel
  induction fuel with
  | zero =>
    intro rx res h px py hpx0 hpx1 hpy0 hpy1
    by_cases hc : rx + ox ≤ tx
    · rw [rightLoop, if_pos hc] at h
      cases h
    · exact Or.inl (by omega)
  | succ f ih =>
    intro rx res h px py hpx0 hpx1 hpy0 hpy1
    by_cases hc : rx + ox ≤ tx
    · rw [rightLoop, if_pos hc] at h
      cases hul : upLoop oy ov ufuel y with
      | none => rw [hul] at h; cases h
      | some ul =>
        cases hdl : downLoop oy ov ty ufuel y with
        | none => rw [hul, hdl] at h; cases h
        | some dl =>
          rw [hul, hdl] at h
          cases hrec : rightLoop ox oy ov tx ty y ufuel f (rx + ox - ov) with
          | none => rw [hrec] at h; cases h
          | some res' =>
            rw [hrec] at h
            injection h with h
            subst h
            by_cases hpx : px < rx + ox
            · exact Or.inl hpx
            · have hres := ih (rx + ox - ov) res' hrec px py (by omega) hpx1
                hpy0 hpy1
              rcases hres with hres | ⟨c, hm, hcov⟩
              · obtain ⟨cy, hcy, hcy1, hcy2⟩ := column_covers oy ov ty hov hoy
                  ufuel y ul dl hul hdl py hpy0 hpy1
                refine Or.inr ⟨(rx + ox - ov, cy), ?_, by omega, hres, hcy1, hcy2⟩
                rcases hcy with rfl | hcy | hcy
                · exact Or.inl (List.mem_cons_self _ _)
                · exact Or.inr (Or.inl (List.mem_append_left _
                    (List.mem_map_of_mem _ hcy)))
                · exact Or.inr (Or.inr (List.mem_append_left _
                    (List.mem_map_of_mem _ hcy)))
              · refine Or.inr ⟨c, ?_, hcov⟩
                rcases hm with hm | hm | hm
                · exact Or.inl (List.mem_cons_of_mem _ hm)
                · exact Or.inr (Or.inl (List.mem_append_right _ hm))
                · exact Or.inr (Or.inr (List.mem_append_right _ hm))
    · exact Or.inl (by omega)

/-- Membership in the master coordinate list assembled by `grid_coords` from
its four reversed sub-lists and the center chunk. -/
theorem mem_grid_result {c : ℤ × ℤ} (x y : ℤ)
    (dyAll uyAll rxl lxl : List (ℤ × ℤ))
    (h : c ∈ dyAll ∨ c ∈ uyAll ∨ c ∈ rxl ∨ c ∈ lxl ∨ c = (x, y)) :
    c ∈ dyAll.reverse ++ uyAll.reverse ++ rxl.reverse ++ lxl.reverse ++
      [(x, y)] := by
  simp only [List.mem_append, List.mem_reverse, List.mem_singleton]
  tauto

/-- C4: for every canvas size, tile size and overlap with `0 ≤ overlap` and
the overlap strictly smaller than both tile dimensions, `grid_coords`
finishes (for some fuel), and whenever it finishes, the union of the
tile-sized rectangles cropped by `grid_slice` at the coordinates it produced
covers every pixel of the target canvas with no gaps. -/
theorem grid_coords_covers (tx ty ox oy overlap : ℤ) (hov : 0 ≤ overlap)
    (hovx : overlap < ox) (hovy : overlap < oy) (htx : 0 < tx) (hty : 0 < ty) :
    (∃ fuel coords, grid_coords fuel (tx, ty) (ox, oy) overlap = some coords) ∧
    ∀ fuel coords, grid_coords fuel (tx, ty) (ox, oy) overlap = some coords →
      ∀ px py : ℤ, 0 ≤ px → px < tx → 0 ≤ py → py < ty →
        ∃ c ∈ coords, inTile ox oy c px py := by
  have hox : 0 < ox := by omega
  have hoy : 0 < oy := by omega
  constructor
  · exact grid_coords_exists tx ty ox oy overlap htx hty hox hoy hovx hovy
  · intro fuel coords h px py hpx0 hpx1 hpy0 hpy1
    unfold grid_coords at h
    dsimp only at h
    set x : ℤ := tx / 2 - ox / 2 with hxdef
    set y : ℤ := ty / 2 - oy / 2 with hydef
    cases hup : upLoop oy overlap fuel y with
    | none => rw [hup] at h; cases h
    | some uyC =>
    cases hdn : downLoop oy overlap ty fuel y with
    | none => rw [hup, hdn] at h; cases h
    | some dyC =>
    cases hlf : leftLoop ox oy overlap ty y fuel fuel x with
    | none => rw [hup, hdn, hlf] at h; cases h
    | some lres =>
    cases hrt : rightLoop ox oy overlap tx ty y fuel fuel x with
    | none => rw [hup, hdn, hlf, hrt] at h; cases h
    | some rres =>
      rw [hup, hdn, hlf, hrt] at h
      injection h with h
      subst h
      by_cases hx : x ≤ px
      · have hr := rightLoop_covers ox oy overlap tx ty y hov hoy fuel fuel x
          rres hrt px py hx hpx1 hpy0 hpy1
        rcases hr with hr | ⟨c, hm, hcov⟩
        · obtain ⟨cy, hcy, h1, h2⟩ := column_covers oy overlap ty hov hoy fuel
            y uyC dyC hup hdn py hpy0 hpy1
          refine ⟨(x, cy), ?_, hx, hr, h1, h2⟩
          apply mem_grid_result
          rcases hcy with rfl | hcy | hcy
          · exact Or.inr (Or.inr (Or.inr (Or.inr rfl)))
          · exact Or.inr (Or.inl (List.mem_append_left _ (List.mem_append_left _
              (List.mem_map_of_mem _ hcy))))
          · exact Or.inl (List.mem_append_left _ (List.mem_append_left _
              (List.mem_map_of_mem _ hcy)))
        · refine ⟨c, ?_, hcov⟩
          apply mem_grid_result
          rcases hm with hm | hm | hm
          · exact Or.inr (Or.inr (Or.inl hm))
          · exact Or.inr (Or.inl (List.mem_append_right _ hm))
          · exact Or.inl (List.mem_append_right _ hm)
      · have hl := leftLoop_covers ox oy overlap ty y hov hoy fuel fuel x
          lres hlf px py hpx0 (by omega) hpy0 hpy1
        rcases hl with hl | ⟨c, hm, hcov⟩
        · omega
        · refine ⟨c, ?_, hcov⟩
          apply mem_grid_result
          rcases hm with hm | hm | hm
          · exact Or.inr (Or.inr (Or.inr (Or.inl hm)))
          · exact Or.inr (Or.inl (List.mem_append_left _
              (List.mem_append_right _ hm)))
          · exact Or.inl (List.mem_append_left _ (List.mem_append_right _ hm))

/-- Witness for C4 at a 10×10 canvas, 4×4 tiles, overlap 1. -/
theorem grid_coords_covers_witness :
    (∃ fuel coords, grid_coords fuel ((10 : ℤ), 10) (4, 4) 1 = some coords) ∧
    ∀ fuel coords, grid_coords fuel ((10 : ℤ), 10) (4, 4) 1 = some coords →
      ∀ px py : ℤ, 0 ≤ px → px < 10 → 0 ≤ py → py < 10 →
        ∃ c ∈ coords, inTile 4 4 c px py :=
  grid_coords_covers 10 10 4 4 1 (by norm_num) (by norm_num) (by norm_num)
    (by norm_num) (by norm_num)

/-- C10: with positive target and tile dimensions and an overlap strictly
smaller than both tile dimensions, `grid_coords` terminates (some finite fuel
makes every `while` loop finish): each loop advances its coordinate by
`tile_size - overlap > 0` per iteration.  When the overlap is greater than or
equal to a tile dimension, the corresponding loops make no progress: with
`overlap ≥ original_y` the vertical loops, and with `overlap ≥ original_x`
the horizontal column loops, fail for every amount of fuel whenever their
`while` condition is initially true. -/
theorem grid_coords_termination :
    (∀ tx ty ox oy overlap : ℤ, 0 < tx → 0 < ty → 0 < ox → 0 < oy →
      overlap < ox → overlap < oy →
      ∃ fuel coords, grid_coords fuel (tx, ty) (ox, oy) overlap = some coords) ∧
    (∀ oy overlap uy : ℤ, oy ≤ overlap → 0 < uy →
      ∀ fuel, upLoop oy overlap fuel uy = none) ∧
    (∀ oy overlap ty dy : ℤ, oy ≤ overlap → dy + oy ≤ ty →
      ∀ fuel, downLoop oy overlap ty fuel dy = none) ∧
    (∀ ox oy overlap ty y lx : ℤ, ox ≤ overlap → 0 < lx →
      ∀ ufuel fuel, leftLoop ox oy overlap ty y ufuel fuel lx = none) ∧
    (∀ ox oy overlap tx ty y rx : ℤ, ox ≤ overlap → rx + ox ≤ tx →
      ∀ ufuel fuel, rightLoop ox oy overlap tx ty y ufuel fuel rx = none) :=
  ⟨fun tx ty ox oy ov h1 h2 h3 h4 h5 h6 =>
      grid_coords_exists tx ty ox oy ov h1 h2 h3 h4 h5 h6,
    fun oy ov uy h h2 fuel => upLoop_stuck oy ov h fuel uy h2,
    fun oy ov ty dy h h2 fuel => downLoop_stuck oy ov ty h fuel dy h2,
    fun ox oy ov ty y lx h h2 ufuel fuel =>
      leftLoop_stuck ox oy ov ty y h ufuel fuel lx h2,
    fun ox oy ov tx ty y rx h h2 ufuel fuel =>
      rightLoop_stuck ox oy ov tx ty y h ufuel fuel rx h2⟩

/-- Witness for C10: termination at a 10×10 canvas with 4×4 tiles and
overlap 1, and concrete stuck loops on both axes when the overlap (5)
reaches the tile dimension (4). -/
theorem grid_coords_termination_witness :
    (∃ fuel coords, grid_coords fuel ((10 : ℤ), 10) (4, 4) 1 = some coords) ∧
    upLoop 4 5 37 3 = none ∧ downLoop 4 5 100 12 3 = none ∧
    leftLoop 4 9 5 100 3 7 11 2 = none ∧
    rightLoop 4 9 5 100 100 3 7 11 2 = none :=
  ⟨grid_coords_termination.1 10 10 4 4 1 (by norm_num) (by norm_num)
      (by norm_num) (by norm_num) (by norm_num) (by norm_num),
    grid_coords_termination.2.1 4 5 3 (by norm_num) (by norm_num) 37,
    grid_coords_termination.2.2.1 4 5 100 3 (by norm_num) (by norm_num) 12,
    grid_coords_termination.2.2.2.1 4 9 5 100 3 2 (by norm_num) (by norm_num)
      7 11,
    grid_coords_termination.2.2.2.2 4 9 5 100 100 3 2 (by norm_num)
      (by norm_num) 7 11⟩

/-- C1 counterexample: expanding the integer pair `(5, 6)` yields a schedule
whose last element is `5`, not the final value `6` (the loop samples the
interpolant at positions `1..999` while the final value sits at anchor `1000`,
and integer truncation keeps every sample at `5`). -/
theorem num_to_schedule_last_cex :
    (num_to_schedule (PyNum.pint 5) (some (PyNum.pint 6))).getLast? ≠
      some (PyNum.pint 6) := by
  rw [num_to_schedule_getLast]
  have hval : val_interpolate 1 (PyNum.pint 5) 1000 (PyNum.pint 6) 999 =
      PyNum.pint 5 := by
    norm_num [val_interpolate, pytrunc, PyNum.toRat]
  rw [hval]
  intro h
  exact absurd (Option.some.inj h) (by decide)
